import Mathlib

/-!
Verification of the reactive aggregation core of `examples/app/downloads/downloads.py`:
the `DownloadsApp.update_data` pipeline that filters an immutable log of installation
events by installer / platform / arch / date range, and derives a time-bucketed
download-count series and an hour-of-week punchcard from the selected subset.

The embedding mirrors the pandas code:
  * an `Event` is one row of the `installers` dataframe; its `date` column is the
    parsed calendar-aware datetime of the unix `timestamp`;
  * `selected.date >= start` / `selected.date <= end` compare the full datetime
    against the date bound coerced to midnight (pandas coerces a `datetime.date`
    to a `Timestamp` at 00:00:00 before comparing with a datetime64 column);
  * `groupby(keys).size()` returns one group per distinct key value present, with
    its multiplicity, sorted ascending by key (pandas `sort=True` default) — it is
    sparse, absent keys are not emitted;
  * `counts.astype(float)/counts.max()` is modelled with exact rationals; on an
    empty `counts` series pandas produces `NaN` for the max and an empty quotient
    series, so the divisor is irrelevant there and is modelled as `0`.
-/

/-- Calendar date, as `datetime.date(year, month, day)`. -/
structure Date where
  year : Nat
  month : Nat
  day : Nat
deriving DecidableEq

/-- Calendar-aware datetime, the value of the `date` column produced by
`pd.to_datetime(df.timestamp, unit='s')`. -/
structure DateTime where
  year : Nat
  month : Nat
  day : Nat
  hour : Nat
  minute : Nat
  second : Nat
deriving DecidableEq

/-- Python `date` comparison `a <= b`: lexicographic on (year, month, day). -/
def Date.le (a b : Date) : Bool :=
  decide (a.year < b.year ∨ (a.year = b.year ∧ (a.month < b.month ∨
    (a.month = b.month ∧ a.day ≤ b.day))))

/-- Python `date` comparison `a < b`: strict lexicographic on (year, month, day). -/
def Date.lt (a b : Date) : Bool :=
  decide (a.year < b.year ∨ (a.year = b.year ∧ (a.month < b.month ∨
    (a.month = b.month ∧ a.day < b.day))))

/-- Datetime comparison `a <= b`: lexicographic on all six components. -/
def DateTime.le (a b : DateTime) : Bool :=
  decide (a.year < b.year ∨ (a.year = b.year ∧ (a.month < b.month ∨ (a.month = b.month ∧
    (a.day < b.day ∨ (a.day = b.day ∧ (a.hour < b.hour ∨ (a.hour = b.hour ∧
    (a.minute < b.minute ∨ (a.minute = b.minute ∧ a.second ≤ b.second))))))))))

/-- Coercion of a `datetime.date` to a timestamp at midnight, which is how pandas
compares a datetime64 column against a `datetime.date` bound. -/
def Date.midnight (d : Date) : DateTime :=
  ⟨d.year, d.month, d.day, 0, 0, 0⟩

/-- Truncation of a datetime to its calendar date. -/
def DateTime.toDate (x : DateTime) : Date :=
  ⟨x.year, x.month, x.day⟩

/-- Gregorian leap-year rule. -/
def isLeap (y : Nat) : Bool :=
  (y % 4 == 0 && y % 100 != 0) || y % 400 == 0

/-- Number of days in month `m` of year `y`. -/
def daysInMonth (y m : Nat) : Nat :=
  if m = 2 then (if isLeap y then 29 else 28)
  else if m = 4 ∨ m = 6 ∨ m = 9 ∨ m = 11 then 30
  else 31

/-- Days of year `y` that precede the first day of month `m`. -/
def daysBeforeMonth (y m : Nat) : Nat :=
  ((List.range (m - 1)).map (fun i => daysInMonth y (i + 1))).sum

/-- Ordinal of the proleptic-Gregorian date (y, m, d), with 0001-01-01 ↦ 1. -/
def daysFromCivil (y m d : Nat) : Nat :=
  365 * (y - 1) + (y - 1) / 4 - (y - 1) / 100 + (y - 1) / 400 + daysBeforeMonth y m + d

/-- Day of week of (y, m, d) in pandas `Timestamp.dayofweek` convention:
Monday = 0 … Sunday = 6 (0001-01-01 was a Monday). -/
def dayOfWeek (y m d : Nat) : Nat :=
  (daysFromCivil y m d - 1) % 7

/-- One row of the `installers` log: the parsed datetime plus the three
categorical columns used by the filters. -/
structure Event where
  date : DateTime
  event : String
  platform : String
  arch : String
deriving DecidableEq

/-- The `resolution` enum of `InstallersModel`. -/
inductive Resolution
  | daily
  | monthly
  | yearly
deriving DecidableEq

/-- The filter state held by `InstallersModel`: the user-selected installer,
resolution, platform, architecture and date range. -/
structure InstallersModel where
  installer : String
  resolution : Resolution
  platform : String
  arch : String
  start : Date
  «end» : Date
deriving DecidableEq

/-- The two date-range filter lines of `update_data`:
`selected = selected[selected.date >= self.modelform.start]` followed by
`selected = selected[selected.date <= self.modelform.end]`; each bound is a
`datetime.date` coerced to midnight by the datetime64 comparison. -/
def dateFiltered (installers : List Event) (m : InstallersModel) : List Event :=
  (installers.filter (fun e => DateTime.le (Date.midnight m.start) e.date)).filter
    (fun e => DateTime.le e.date (Date.midnight m.«end»))

/-- The full filter pass of `update_data`: date range, then the three
conditional equality filters guarded by `!= "All"`. -/
def selectedEvents (installers : List Event) (m : InstallersModel) : List Event :=
  let selected := dateFiltered installers m
  let selected :=
    if m.installer ≠ "All" then selected.filter (fun e => e.event == m.installer) else selected
  let selected :=
    if m.platform ≠ "All" then selected.filter (fun e => e.platform == m.platform) else selected
  if m.arch ≠ "All" then selected.filter (fun e => e.arch == m.arch) else selected

/-- The resolution rule `fn` of `update_data`: daily ↦ date(y, m, d),
monthly ↦ date(y, m, 1), yearly ↦ date(y, 1, 1). -/
def bucketFn (resolution : Resolution) (x : DateTime) : Date :=
  match resolution with
  | .daily => ⟨x.year, x.month, x.day⟩
  | .monthly => ⟨x.year, x.month, 1⟩
  | .yearly => ⟨x.year, 1, 1⟩

/-- Sorted insertion that drops an already-present key; building block for the
distinct sorted group keys of a pandas `groupby`. -/
def insertKey {α : Type} [DecidableEq α] (lt : α → α → Bool) (d : α) : List α → List α
  | [] => [d]
  | x :: xs => if lt d x then d :: x :: xs else if d = x then x :: xs else x :: insertKey lt d xs

/-- The distinct values of `l`, sorted ascending by `lt`. -/
def sortedKeys {α : Type} [DecidableEq α] (lt : α → α → Bool) (l : List α) : List α :=
  l.foldr (insertKey lt) []

/-- `series.groupby(keys).size()`: one `(key, multiplicity)` pair per distinct
key present in `l`, sorted ascending by key; absent keys are not emitted. -/
def groupbySize {α : Type} [DecidableEq α] (lt : α → α → Bool) (l : List α) : List (α × Nat) :=
  (sortedKeys lt l).map (fun d => (d, l.count d))

/-- `x.hour` of an event's datetime. -/
def hourOfEvent (e : Event) : Nat := e.date.hour

/-- `x.dayofweek` of an event's datetime (Monday = 0). -/
def dowOfEvent (e : Event) : Nat := dayOfWeek e.date.year e.date.month e.date.day

/-- Strict lexicographic order on (hour, dayofweek) pairs: the sort order of the
pandas MultiIndex produced by `groupby([hours, daysofweek])`, hour-major. -/
def pairLt (a b : Nat × Nat) : Bool :=
  decide (a.1 < b.1 ∨ (a.1 = b.1 ∧ a.2 < b.2))

/-- `downloads = selected.groupby(dates).size()` where
`dates = selected.date.map(fn)`: the sparse time series of
(bucket date, count) pairs, ascending by bucket date. -/
def timeSeries (installers : List Event) (m : InstallersModel) : List (Date × Nat) :=
  groupbySize Date.lt ((selectedEvents installers m).map (fun e => bucketFn m.resolution e.date))

/-- `counts = selected.groupby([hours, daysofweek]).size()`: the sparse punchcard
groups, one ((hour, dayofweek), count) pair per combination present in the
selected set, in hour-major order. -/
def punchcardGroups (installers : List Event) (m : InstallersModel) :
    List ((Nat × Nat) × Nat) :=
  groupbySize pairLt ((selectedEvents installers m).map (fun e => (hourOfEvent e, dowOfEvent e)))

/-- `counts.max()`: the maximum group count (0 on an empty series; pandas yields
NaN there, but the empty quotient series never consumes it). -/
def maxCount (installers : List Event) (m : InstallersModel) : Nat :=
  ((punchcardGroups installers m).map Prod.snd).foldr max 0

/-- `percentages = counts.astype(float)/counts.max()`, with exact rationals in
place of floats. -/
def percentages (installers : List Event) (m : InstallersModel) : List ℚ :=
  (punchcardGroups installers m).map (fun g => (g.2 : ℚ) / (maxCount installers m : ℚ))

/-- The `days` factor list of `create`:
`["Monday", ..., "Sunday"]`. -/
def weekDays : List String :=
  ["Monday", "Tuesday", "Wednesday", "Thursday", "Friday", "Saturday", "Sunday"]

/-- The `hours` column set in `create`:
`sum([[str(hour)]*7 for hour in xrange(0, 24)], [])` — 168 labels, hour-major. -/
def punchcardHours : List String :=
  ((List.range 24).map (fun hour => List.replicate 7 (toString hour))).flatten

/-- The `days` column set in `create`: the weekday list repeated 24 times. -/
def punchcardDays : List String :=
  (List.replicate 24 weekDays).flatten

/-- The `data` dict of `downloads_source`. -/
structure DownloadsData where
  dates : List Date
  downloads : List Nat
deriving DecidableEq

/-- The `data` dict of `punchcard_source`. -/
structure PunchcardData where
  counts : List Nat
  percentages : List ℚ
  hours : List String
  days : List String
deriving DecidableEq

/-- The mutable state `update_data` touches: the data dicts of the two
column data sources. -/
structure SourceState where
  downloads_source : DownloadsData
  punchcard_source : PunchcardData
deriving DecidableEq

/-- The source state as initialised in `create`, before the first
`update_data` call: empty derived columns, fixed 168-entry label grid. -/
def create_state : SourceState where
  downloads_source := { dates := [], downloads := [] }
  punchcard_source :=
    { counts := [], percentages := [], hours := punchcardHours, days := punchcardDays }

/-- `update_data` as a state transformer: recompute both derived datasets from
the store and the filter state, then `dict.update` the two source dicts —
replacing `dates`/`downloads` wholesale and only the `counts`/`percentages`
keys of the punchcard dict. -/
def update_data (installers : List Event) (m : InstallersModel) (s : SourceState) :
    SourceState :=
  let downloads := timeSeries installers m
  let counts := punchcardGroups installers m
  { downloads_source :=
      { dates := downloads.map Prod.fst, downloads := downloads.map Prod.snd },
    punchcard_source :=
      { s.punchcard_source with
          counts := counts.map Prod.snd,
          percentages := percentages installers m } }

/-- The date-range predicate as the spec words it: keep an event iff
`start ≤ date(timestamp) ≤ end`, a date comparison after truncating the
timestamp to its calendar date. Stated for comparison with `dateFiltered`. -/
def specDateKeep (m : InstallersModel) (e : Event) : Bool :=
  Date.le m.start e.date.toDate && Date.le e.date.toDate m.«end»

set_option maxRecDepth 8000

/-! Order facts for the two group-key orders. -/

theorem Date.lt_trans_bool {a b c : Date} (h1 : Date.lt a b = true) (h2 : Date.lt b c = true) :
    Date.lt a c = true := by
  simp only [Date.lt, decide_eq_true_eq] at *
  omega

theorem Date.lt_asymm_total {a b : Date} (h1 : Date.lt a b = false) (h2 : a ≠ b) :
    Date.lt b a = true := by
  cases a with
  | mk ya ma da =>
    cases b with
    | mk yb mb db =>
      simp only [Date.lt, decide_eq_false_iff_not, decide_eq_true_eq, ne_eq,
        Date.mk.injEq] at *
      omega

theorem Date.lt_irrefl_bool (a : Date) : Date.lt a a = false := by
  simp only [Date.lt, decide_eq_false_iff_not]
  omega

theorem pairLt_trans {a b c : Nat × Nat} (h1 : pairLt a b = true) (h2 : pairLt b c = true) :
    pairLt a c = true := by
  simp only [pairLt, decide_eq_true_eq] at *
  omega

theorem pairLt_asymm_total {a b : Nat × Nat} (h1 : pairLt a b = false) (h2 : a ≠ b) :
    pairLt b a = true := by
  cases a with
  | mk a1 a2 =>
    cases b with
    | mk b1 b2 =>
      simp only [pairLt, decide_eq_false_iff_not, decide_eq_true_eq, ne_eq,
        Prod.mk.injEq] at *
      omega

theorem pairLt_irrefl (a : Nat × Nat) : pairLt a a = false := by
  simp only [pairLt, decide_eq_false_iff_not]
  omega

/-! Membership, sortedness and multiplicity facts for `sortedKeys` / `groupbySize`. -/

theorem mem_insertKey {α : Type} [DecidableEq α] {lt : α → α → Bool} {a d : α} :
    ∀ {l : List α}, a ∈ insertKey lt d l ↔ a = d ∨ a ∈ l := by
  intro l
  induction l with
  | nil => simp [insertKey]
  | cons x xs ih =>
    simp only [insertKey]
    split
    · simp [List.mem_cons]
    · split
      next h2 =>
        subst h2
        simp only [List.mem_cons]
        tauto
      next h2 =>
        simp only [List.mem_cons, ih]
        tauto

theorem mem_sortedKeys {α : Type} [DecidableEq α] {lt : α → α → Bool} {a : α} :
    ∀ {l : List α}, a ∈ sortedKeys lt l ↔ a ∈ l := by
  intro l
  induction l with
  | nil => simp [sortedKeys]
  | cons x xs ih =>
    simp only [sortedKeys, List.foldr_cons] at *
    rw [mem_insertKey]
    simp [ih, List.mem_cons]

theorem pairwise_insertKey {α : Type} [DecidableEq α] {lt : α → α → Bool}
    (htrans : ∀ a b c, lt a b = true → lt b c = true → lt a c = true)
    (htot : ∀ a b : α, lt a b = false → a ≠ b → lt b a = true)
    {d : α} : ∀ {l : List α}, l.Pairwise (fun a b => lt a b = true) →
      (insertKey lt d l).Pairwise (fun a b => lt a b = true) := by
  intro l
  induction l with
  | nil =>
    intro _
    simp [insertKey]
  | cons x xs ih =>
    intro h
    rcases List.pairwise_cons.mp h with ⟨hx, hxs⟩
    by_cases h1 : lt d x = true
    · simp only [insertKey, if_pos h1]
      refine List.pairwise_cons.mpr ⟨?_, h⟩
      intro b hb
      rcases List.mem_cons.mp hb with rfl | hb
      · exact h1
      · exact htrans d x b h1 (hx b hb)
    · simp only [insertKey, if_neg h1]
      by_cases h2 : d = x
      · simp only [if_pos h2]
        exact h
      · simp only [if_neg h2]
        refine List.pairwise_cons.mpr ⟨?_, ih hxs⟩
        intro b hb
        rcases mem_insertKey.mp hb with hbd | hb
        · rw [hbd]
          have h1f : lt d x = false := by
            simpa using h1
          exact htot d x h1f h2
        · exact hx b hb

theorem pairwise_sortedKeys {α : Type} [DecidableEq α] {lt : α → α → Bool}
    (htrans : ∀ a b c, lt a b = true → lt b c = true → lt a c = true)
    (htot : ∀ a b : α, lt a b = false → a ≠ b → lt b a = true)
    (l : List α) : (sortedKeys lt l).Pairwise (fun a b => lt a b = true) := by
  induction l with
  | nil => simp [sortedKeys]
  | cons x xs ih =>
    exact pairwise_insertKey htrans htot ih

theorem nodup_sortedKeys {α : Type} [DecidableEq α] {lt : α → α → Bool}
    (htrans : ∀ a b c, lt a b = true → lt b c = true → lt a c = true)
    (htot : ∀ a b : α, lt a b = false → a ≠ b → lt b a = true)
    (hirr : ∀ a : α, lt a a = false)
    (l : List α) : (sortedKeys lt l).Nodup := by
  have h := pairwise_sortedKeys htrans htot l
  refine h.imp ?_
  intro a b hab
  intro hEq
  subst hEq
  rw [hirr a] at hab
  exact Bool.false_ne_true hab

theorem mem_groupbySize {α : Type} [DecidableEq α] {lt : α → α → Bool} {p : α × Nat}
    {l : List α} : p ∈ groupbySize lt l ↔ p.1 ∈ l ∧ p.2 = l.count p.1 := by
  simp only [groupbySize, List.mem_map]
  constructor
  · rintro ⟨d, hd, rfl⟩
    exact ⟨mem_sortedKeys.mp hd, rfl⟩
  · rintro ⟨hmem, hcount⟩
    exact ⟨p.1, mem_sortedKeys.mpr hmem, by rw [← hcount]⟩

theorem count_filter_out {α : Type} [DecidableEq α] (d k : α) (hdk : d ≠ k) :
    ∀ l : List α, (l.filter (fun a => !(a == k))).count d = l.count d := by
  intro l
  induction l with
  | nil => simp
  | cons x xs ih =>
    by_cases hxk : x = k
    · subst hxk
      have hxd : (x == d) = false := by
        simp [Ne.symm hdk]
      simp [List.filter_cons, List.count_cons, hxd, ih]
    · have hbeq : (x == k) = false := by
        simp [hxk]
      simp [List.filter_cons, hbeq, List.count_cons, ih]

theorem length_count_split {α : Type} [DecidableEq α] (k : α) :
    ∀ l : List α, l.length = l.count k + (l.filter (fun a => !(a == k))).length := by
  intro l
  induction l with
  | nil => simp
  | cons x xs ih =>
    by_cases hxk : x = k
    · subst hxk
      simp [List.filter_cons, List.count_cons]
      omega
    · have hbeq : (x == k) = false := by
        simp [hxk]
      simp [List.filter_cons, hbeq, List.count_cons]
      omega

theorem sum_counts_nodup {α : Type} [DecidableEq α] :
    ∀ (keys : List α) (l : List α), keys.Nodup → (∀ a, a ∈ keys ↔ a ∈ l) →
      (keys.map (fun d => l.count d)).sum = l.length := by
  intro keys
  induction keys with
  | nil =>
    intro l _ hmem
    have hl : l = [] := by
      refine List.eq_nil_iff_forall_not_mem.mpr ?_
      intro a ha
      exact (List.not_mem_nil a) ((hmem a).mpr ha)
    subst hl
    simp
  | cons k ks ih =>
    intro l hnd hmem
    rcases List.nodup_cons.mp hnd with ⟨hk, hks⟩
    have hcongr : ∀ d ∈ ks, l.count d = (l.filter (fun a => !(a == k))).count d := by
      intro d hd
      have hdk : d ≠ k := fun hEq => hk (hEq ▸ hd)
      exact (count_filter_out d k hdk l).symm
    have hmem' : ∀ a, a ∈ ks ↔ a ∈ l.filter (fun a => !(a == k)) := by
      intro a
      constructor
      · intro ha
        have hal : a ∈ l := (hmem a).mp (List.mem_cons_of_mem k ha)
        have hak : a ≠ k := fun hEq => hk (hEq ▸ ha)
        refine List.mem_filter.mpr ⟨hal, ?_⟩
        simp [hak]
      · intro ha
        rcases List.mem_filter.mp ha with ⟨hal, hne⟩
        have hak : a ≠ k := by
          simpa using hne
        rcases List.mem_cons.mp ((hmem a).mpr hal) with hEq | hks'
        · exact absurd hEq hak
        · exact hks'
    calc (List.map (fun d => l.count d) (k :: ks)).sum
        = l.count k + (ks.map (fun d => l.count d)).sum := by
          simp
      _ = l.count k + (ks.map (fun d => (l.filter (fun a => !(a == k))).count d)).sum := by
          rw [List.map_congr_left hcongr]
      _ = l.count k + (l.filter (fun a => !(a == k))).length := by
          rw [ih _ hks hmem']
      _ = l.length := (length_count_split k l).symm

theorem groupbySize_sum {α : Type} [DecidableEq α] {lt : α → α → Bool}
    (htrans : ∀ a b c, lt a b = true → lt b c = true → lt a c = true)
    (htot : ∀ a b : α, lt a b = false → a ≠ b → lt b a = true)
    (hirr : ∀ a : α, lt a a = false)
    (l : List α) : ((groupbySize lt l).map Prod.snd).sum = l.length := by
  have h1 : (groupbySize lt l).map Prod.snd = (sortedKeys lt l).map (fun d => l.count d) := by
    simp [groupbySize, List.map_map, Function.comp]
  rw [h1]
  exact sum_counts_nodup (sortedKeys lt l) l (nodup_sortedKeys htrans htot hirr l)
    (fun a => mem_sortedKeys)

theorem le_foldr_max {x : Nat} : ∀ {l : List Nat}, x ∈ l → x ≤ l.foldr max 0 := by
  intro l
  induction l with
  | nil => intro h; exact absurd h (List.not_mem_nil x)
  | cons y ys ih =>
    intro h
    rcases List.mem_cons.mp h with rfl | h
    · exact Nat.le_max_left _ _
    · exact Nat.le_trans (ih h) (Nat.le_max_right _ _)

theorem foldr_max_mem : ∀ (l : List Nat), l.foldr max 0 = 0 ∨ l.foldr max 0 ∈ l := by
  intro l
  induction l with
  | nil => exact Or.inl rfl
  | cons y ys ih =>
    simp only [List.foldr_cons]
    rcases Nat.le_total y (ys.foldr max 0) with h | h
    · rw [Nat.max_eq_right h]
      rcases ih with h0 | hmem
      · rw [h0]
        rw [h0] at h
        have : y = 0 := Nat.le_zero.mp h
        exact Or.inr (this ▸ List.mem_cons_self y ys)
      · exact Or.inr (List.mem_cons_of_mem y hmem)
    · rw [Nat.max_eq_left h]
      exact Or.inr (List.mem_cons_self y ys)

/-- The conjunction of the code's filter predicates: date range (midnight-coerced
bounds) and the three equality tests, each deactivated by the "All" sentinel. -/
def activePred (m : InstallersModel) (e : Event) : Bool :=
  DateTime.le (Date.midnight m.start) e.date &&
  DateTime.le e.date (Date.midnight m.«end») &&
  (m.installer == "All" || e.event == m.installer) &&
  (m.platform == "All" || e.platform == m.platform) &&
  (m.arch == "All" || e.arch == m.arch)

/-- The five filter stages of `update_data`, in source order, each as a
standalone row predicate. -/
def filterStages (m : InstallersModel) : List (Event → Bool) :=
  [fun e => DateTime.le (Date.midnight m.start) e.date,
   fun e => DateTime.le e.date (Date.midnight m.«end»),
   fun e => m.installer == "All" || e.event == m.installer,
   fun e => m.platform == "All" || e.platform == m.platform,
   fun e => m.arch == "All" || e.arch == m.arch]

/-- Application of a list of row predicates as successive dataframe filters. -/
def applyFilters (preds : List (Event → Bool)) (store : List Event) : List Event :=
  preds.foldl (fun s p => s.filter p) store

theorem mem_selectedEvents {store : List Event} {m : InstallersModel} {e : Event} :
    e ∈ selectedEvents store m ↔ e ∈ store ∧ activePred m e = true := by
  simp only [selectedEvents, dateFiltered, activePred]
  by_cases h1 : m.installer = "All" <;> by_cases h2 : m.platform = "All" <;>
    by_cases h3 : m.arch = "All" <;>
      simp [h1, h2, h3, List.mem_filter] <;> tauto

theorem applyFilters_eq_filter_all (store : List Event) :
    ∀ preds : List (Event → Bool),
      applyFilters preds store = store.filter (fun e => preds.all (fun p => p e)) := by
  intro preds
  induction preds generalizing store with
  | nil => simp [applyFilters]
  | cons p ps ih =>
    simp only [applyFilters, List.foldl_cons] at *
    rw [ih (store.filter p), List.filter_filter]
    apply List.filter_congr
    intro e _
    simp [Bool.and_comm]

theorem applyFilters_perm (store : List Event) {preds₁ preds₂ : List (Event → Bool)}
    (h : preds₁.Perm preds₂) : applyFilters preds₁ store = applyFilters preds₂ store := by
  rw [applyFilters_eq_filter_all, applyFilters_eq_filter_all]
  apply List.filter_congr
  intro e _
  have : preds₁.all (fun p => p e) = true ↔ preds₂.all (fun p => p e) = true := by
    simp only [List.all_eq_true]
    exact ⟨fun hall p hp => hall p (h.mem_iff.mpr hp),
           fun hall p hp => hall p (h.mem_iff.mp hp)⟩
  cases hb : preds₂.all (fun p => p e)
  · cases hb2 : preds₁.all (fun p => p e)
    · rfl
    · exact absurd (this.mp hb2) (by simp [hb])
  · exact this.mpr hb

theorem selectedEvents_eq_filter (store : List Event) (m : InstallersModel) :
    selectedEvents store m = store.filter (activePred m) := by
  simp only [selectedEvents, dateFiltered, activePred]
  by_cases h1 : m.installer = "All" <;> by_cases h2 : m.platform = "All" <;>
    by_cases h3 : m.arch = "All" <;>
      simp only [h1, h2, h3, ne_eq, not_true_eq_false, not_false_eq_true, if_true, if_false,
        ite_not, List.filter_filter] <;>
        (apply List.filter_congr; intro e _;
         cases ha : DateTime.le (Date.midnight m.start) e.date <;>
           cases hb : DateTime.le e.date (Date.midnight m.«end») <;>
             cases hc : (e.event == m.installer) <;>
               cases hd : (e.platform == m.platform) <;>
                 cases he : (e.arch == m.arch) <;>
                   simp [activePred, h1, h2, h3, ha, hb, hc, hd, he, beq_iff_eq])

theorem applyFilters_stages (store : List Event) (m : InstallersModel) :
    applyFilters (filterStages m) store = selectedEvents store m := by
  rw [applyFilters_eq_filter_all, selectedEvents_eq_filter]
  apply List.filter_congr
  intro e _
  simp [filterStages, activePred, Bool.and_assoc]

theorem DateTime.le_trans_bool {a b c : DateTime} (h1 : DateTime.le a b = true)
    (h2 : DateTime.le b c = true) : DateTime.le a c = true := by
  simp only [DateTime.le, decide_eq_true_eq] at *
  omega

theorem midnight_mono {a b : Date} (h : Date.le a b = true) :
    DateTime.le (Date.midnight a) (Date.midnight b) = true := by
  cases a with
  | mk ya ma da =>
    cases b with
    | mk yb mb db =>
      simp only [Date.le, decide_eq_true_eq] at h
      simp only [Date.midnight, DateTime.le, decide_eq_true_eq, lt_self_iff_false,
        le_refl, true_and, and_true, false_or, or_false]
      omega

theorem count_pos_of_mem {α : Type} [DecidableEq α] {a : α} :
    ∀ {l : List α}, a ∈ l → 1 ≤ l.count a := by
  intro l h
  induction l with
  | nil => cases h
  | cons x xs ih =>
    rcases List.mem_cons.mp h with rfl | h
    · rw [List.count_cons_self]
      omega
    · have := ih h
      rw [List.count_cons]
      omega

theorem punchcardGroups_count_pos {store : List Event} {m : InstallersModel} :
    ∀ g ∈ punchcardGroups store m, 1 ≤ g.2 := by
  intro g hg
  rcases mem_groupbySize.mp hg with ⟨hmem, hcount⟩
  rw [hcount]
  exact count_pos_of_mem hmem

theorem le_maxCount {store : List Event} {m : InstallersModel} :
    ∀ g ∈ punchcardGroups store m, g.2 ≤ maxCount store m := by
  intro g hg
  exact le_foldr_max (List.mem_map_of_mem Prod.snd hg)

theorem maxCount_attained {store : List Event} {m : InstallersModel}
    (h : 0 < maxCount store m) :
    ∃ g ∈ punchcardGroups store m, g.2 = maxCount store m := by
  rcases foldr_max_mem ((punchcardGroups store m).map Prod.snd) with h0 | hmem
  · rw [maxCount] at h
    omega
  · rcases List.mem_map.mp hmem with ⟨g, hg, hsnd⟩
    exact ⟨g, hg, hsnd⟩

theorem maxCount_zero_empty {store : List Event} {m : InstallersModel}
    (h : maxCount store m = 0) : punchcardGroups store m = [] := by
  cases hg : punchcardGroups store m with
  | nil => rfl
  | cons g gs =>
    have h1 : 1 ≤ g.2 := punchcardGroups_count_pos g (by rw [hg]; exact List.mem_cons_self g gs)
    have h2 : g.2 ≤ maxCount store m :=
      le_maxCount g (by rw [hg]; exact List.mem_cons_self g gs)
    omega

theorem activePred_relax_installer {m : InstallersModel} {e : Event}
    (h : activePred m e = true) : activePred { m with installer := "All" } e = true := by
  simp only [activePred, Bool.and_eq_true, Bool.or_eq_true] at *
  refine ⟨⟨⟨⟨h.1.1.1.1, h.1.1.1.2⟩, Or.inl ?_⟩, h.1.2⟩, h.2⟩
  simp

theorem activePred_relax_platform {m : InstallersModel} {e : Event}
    (h : activePred m e = true) : activePred { m with platform := "All" } e = true := by
  simp only [activePred, Bool.and_eq_true, Bool.or_eq_true] at *
  refine ⟨⟨h.1.1, Or.inl ?_⟩, h.2⟩
  simp

theorem activePred_relax_arch {m : InstallersModel} {e : Event}
    (h : activePred m e = true) : activePred { m with arch := "All" } e = true := by
  simp only [activePred, Bool.and_eq_true, Bool.or_eq_true] at *
  refine ⟨h.1, Or.inl ?_⟩
  simp

theorem activePred_relax_range {m : InstallersModel} {e : Event} {s' e' : Date}
    (hs : Date.le s' m.start = true) (he : Date.le m.«end» e' = true)
    (h : activePred m e = true) : activePred { m with start := s', «end» := e' } e = true := by
  simp only [activePred, Bool.and_eq_true] at *
  exact ⟨⟨⟨⟨DateTime.le_trans_bool (midnight_mono hs) h.1.1.1.1,
    DateTime.le_trans_bool h.1.1.1.2 (midnight_mono he)⟩, h.1.1.2⟩, h.1.2⟩, h.2⟩

/-- A sample event: 2024-01-01 10:30:00 (a Monday), installer "Anaconda",
platform "win", arch "x64". -/
def sampleEvent : Event :=
  ⟨⟨2024, 1, 1, 10, 30, 0⟩, "Anaconda", "win", "x64"⟩

/-- An event at 10:00 in the morning of 2024-01-02. -/
def endDayEvent : Event :=
  ⟨⟨2024, 1, 2, 10, 0, 0⟩, "Anaconda", "win", "x64"⟩

/-- A filter state with all categorical filters relaxed and date range
2024-01-01 .. 2024-01-02. -/
def sampleModel : InstallersModel :=
  ⟨"All", .monthly, "All", "All", ⟨2024, 1, 1⟩, ⟨2024, 1, 2⟩⟩

/-- A filter state with an inverted date range (start 2024-02-01 after
end 2024-01-01), selecting nothing. -/
def invertedModel : InstallersModel :=
  ⟨"All", .monthly, "All", "All", ⟨2024, 2, 1⟩, ⟨2024, 1, 1⟩⟩

/-- C1: the punchcard the code produces is NOT the dense 168-cell grid the spec
describes. At a store holding a single event (hour 10, Monday) with a filter
state selecting it, `groupby([hours, daysofweek]).size()` emits exactly one
group, so the `counts` column written into `punchcard_source` has length 1,
not 168, while the fixed label columns written in `create` have length 168 —
the sparse counts misalign with the dense hour/day label grid. -/
theorem punchcard_not_dense_at_single_event :
    (update_data [sampleEvent] sampleModel create_state).punchcard_source.counts = [1] ∧
    (update_data [sampleEvent] sampleModel create_state).punchcard_source.hours.length = 168 ∧
    (update_data [sampleEvent] sampleModel create_state).punchcard_source.days.length = 168 := by
  refine ⟨by decide, rfl, rfl⟩

/-- C2: with an inverted date range the selected set is empty and the
aggregation still evaluates (it is total): the time series columns are empty,
as the claim says; but the punchcard `counts` and `percentages` columns are
also written as empty sequences, not as the 168-cell all-zero grid the claim
describes. -/
theorem empty_selection_empty_columns :
    selectedEvents [sampleEvent] invertedModel = [] ∧
    (update_data [sampleEvent] invertedModel create_state).downloads_source.dates = [] ∧
    (update_data [sampleEvent] invertedModel create_state).downloads_source.downloads = [] ∧
    (update_data [sampleEvent] invertedModel create_state).punchcard_source.counts = [] ∧
    (update_data [sampleEvent] invertedModel create_state).punchcard_source.percentages = [] := by
  exact ⟨by decide, rfl, rfl, by decide, rfl⟩

/-- C3 counterexample: an event at 10:00 on the end date of the range satisfies
the spec's date predicate `start ≤ date(timestamp) ≤ end`, yet the code's
date-range pass drops it, because the pandas comparison coerces the `end` date
to midnight and compares full datetimes: 2024-01-02 10:00 > 2024-01-02 00:00. -/
theorem end_date_afternoon_event_dropped :
    specDateKeep sampleModel endDayEvent = true ∧
    endDayEvent ∉ dateFiltered [endDayEvent] sampleModel := by
  exact ⟨by decide, by decide⟩

/-- C3 amended: the date-range pass keeps an event iff
`midnight(start) ≤ timestamp ≤ midnight(end)` as a datetime comparison; every
event on the start date is kept (any time of day is ≥ midnight), but among the
events on the end date only those at exactly 00:00:00 survive. -/
theorem dateFiltered_mem_iff (store : List Event) (m : InstallersModel) (e : Event) :
    e ∈ dateFiltered store m ↔
      e ∈ store ∧ DateTime.le (Date.midnight m.start) e.date = true ∧
        DateTime.le e.date (Date.midnight m.«end») = true := by
  simp only [dateFiltered, List.mem_filter, and_assoc]

/-- C4: the selected set is exactly the store filtered by the conjunction of
the active predicates (as a list equality and as a membership
characterization); applying the five filter stages in any order yields the
same selected set; and relaxing any one filter (installer, platform or arch
back to "All", or widening the date range) only ever enlarges the selected
set. -/
theorem filter_conjunction (store : List Event) (m : InstallersModel) :
    selectedEvents store m = store.filter (activePred m) ∧
    (∀ e : Event, e ∈ selectedEvents store m ↔ e ∈ store ∧ activePred m e = true) ∧
    (∀ preds : List (Event → Bool), preds.Perm (filterStages m) →
        applyFilters preds store = selectedEvents store m) ∧
    selectedEvents store m ⊆ selectedEvents store { m with installer := "All" } ∧
    selectedEvents store m ⊆ selectedEvents store { m with platform := "All" } ∧
    selectedEvents store m ⊆ selectedEvents store { m with arch := "All" } ∧
    (∀ s' e' : Date, Date.le s' m.start = true → Date.le m.«end» e' = true →
        selectedEvents store m ⊆ selectedEvents store { m with start := s', «end» := e' }) := by
  refine ⟨selectedEvents_eq_filter store m, fun e => mem_selectedEvents, ?_, ?_, ?_, ?_, ?_⟩
  · intro preds hperm
    exact (applyFilters_perm store hperm).trans (applyFilters_stages store m)
  · intro a ha
    rcases mem_selectedEvents.mp ha with ⟨hst, hp⟩
    exact mem_selectedEvents.mpr ⟨hst, activePred_relax_installer hp⟩
  · intro a ha
    rcases mem_selectedEvents.mp ha with ⟨hst, hp⟩
    exact mem_selectedEvents.mpr ⟨hst, activePred_relax_platform hp⟩
  · intro a ha
    rcases mem_selectedEvents.mp ha with ⟨hst, hp⟩
    exact mem_selectedEvents.mpr ⟨hst, activePred_relax_arch hp⟩
  · intro s' e' hs he a ha
    rcases mem_selectedEvents.mp ha with ⟨hst, hp⟩
    exact mem_selectedEvents.mpr ⟨hst, activePred_relax_range hs he hp⟩

/-- C4 witness: at the sample store the two date stages applied in swapped
order still produce the selected set, and widening the sample date range
keeps the selected event. -/
theorem filter_conjunction_witness :
    applyFilters
      [fun e => DateTime.le e.date (Date.midnight sampleModel.«end»),
       fun e => DateTime.le (Date.midnight sampleModel.start) e.date,
       fun e => sampleModel.installer == "All" || e.event == sampleModel.installer,
       fun e => sampleModel.platform == "All" || e.platform == sampleModel.platform,
       fun e => sampleModel.arch == "All" || e.arch == sampleModel.arch]
      [sampleEvent] = selectedEvents [sampleEvent] sampleModel ∧
    sampleEvent ∈
      selectedEvents [sampleEvent]
        { sampleModel with start := ⟨2023, 12, 31⟩, «end» := ⟨2024, 2, 1⟩ } := by
  have h := filter_conjunction [sampleEvent] sampleModel
  refine ⟨h.2.2.1 _ (List.Perm.swap _ _ _), ?_⟩
  exact h.2.2.2.2.2.2 ⟨2023, 12, 31⟩ ⟨2024, 2, 1⟩ (by decide) (by decide)
    (by decide : sampleEvent ∈ selectedEvents [sampleEvent] sampleModel)

theorem groupbySize_map_fst {α : Type} [DecidableEq α] {lt : α → α → Bool} (l : List α) :
    (groupbySize lt l).map Prod.fst = sortedKeys lt l := by
  simp [groupbySize, List.map_map, Function.comp_def]

/-- C5: the time-series bucket of an event is its timestamp truncated by the
resolution rule — daily keeps (year, month, day), monthly resets the day to 1,
yearly resets month and day to 1 — and the bucket of every selected event
appears among the emitted bucket dates. -/
theorem bucket_resolution_rule (store : List Event) (m : InstallersModel) (x : DateTime) :
    bucketFn Resolution.daily x = ⟨x.year, x.month, x.day⟩ ∧
    bucketFn Resolution.monthly x = ⟨x.year, x.month, 1⟩ ∧
    bucketFn Resolution.yearly x = ⟨x.year, 1, 1⟩ ∧
    (∀ e ∈ selectedEvents store m,
        bucketFn m.resolution e.date ∈ (timeSeries store m).map Prod.fst) := by
  refine ⟨rfl, rfl, rfl, ?_⟩
  intro e he
  rw [timeSeries, groupbySize_map_fst]
  exact mem_sortedKeys.mpr (List.mem_map_of_mem _ he)

/-- C5 witness: the sample event's monthly bucket 2024-01-01 appears in the
time series computed from the sample store. -/
theorem bucket_resolution_rule_witness :
    bucketFn sampleModel.resolution sampleEvent.date ∈
      (timeSeries [sampleEvent] sampleModel).map Prod.fst :=
  (bucket_resolution_rule [sampleEvent] sampleModel sampleEvent.date).2.2.2 sampleEvent
    (by decide)

/-- C6: the time series is strictly ascending in bucket date (hence one pair
per distinct bucket), every emitted count is the multiplicity of its bucket in
the selected set and is at least 1, and a bucket date is emitted iff some
selected event falls in that bucket. -/
theorem timeSeries_sparse_sorted (store : List Event) (m : InstallersModel) :
    (timeSeries store m).Pairwise (fun p q => Date.lt p.1 q.1 = true) ∧
    (∀ p ∈ timeSeries store m, 1 ≤ p.2 ∧
        p.2 = ((selectedEvents store m).map
          (fun e => bucketFn m.resolution e.date)).count p.1) ∧
    (∀ d : Date, d ∈ (timeSeries store m).map Prod.fst ↔
        ∃ e ∈ selectedEvents store m, bucketFn m.resolution e.date = d) := by
  refine ⟨?_, ?_, ?_⟩
  · rw [timeSeries, groupbySize]
    refine List.pairwise_map.mpr ?_
    have hp := @pairwise_sortedKeys Date _ Date.lt
      (fun a b c h1 h2 => Date.lt_trans_bool h1 h2)
      (fun a b h1 h2 => Date.lt_asymm_total h1 h2)
      ((selectedEvents store m).map (fun e => bucketFn m.resolution e.date))
    exact hp.imp (fun h => h)
  · intro p hp
    rcases mem_groupbySize.mp hp with ⟨hmem, hcount⟩
    exact ⟨hcount ▸ count_pos_of_mem hmem, hcount⟩
  · intro d
    rw [timeSeries, groupbySize_map_fst, mem_sortedKeys]
    simp [List.mem_map]

/-- C6 witness: the pair (2024-01-01, 1) is emitted for the sample store and
its count is the bucket's multiplicity, at least 1. -/
theorem timeSeries_sparse_sorted_witness :
    1 ≤ ((⟨2024, 1, 1⟩ : Date), 1).2 ∧
    ((⟨2024, 1, 1⟩ : Date), 1).2 =
      ((selectedEvents [sampleEvent] sampleModel).map
        (fun e => bucketFn sampleModel.resolution e.date)).count (⟨2024, 1, 1⟩ : Date) :=
  (timeSeries_sparse_sorted [sampleEvent] sampleModel).2.1 (⟨2024, 1, 1⟩, 1) (by decide)

/-- C7: each emitted punchcard percentage is the cell's count divided by the
maximum count; every percentage lies in [0, 1]; whenever the maximum count is
positive some cell reaches exactly 1; and when the maximum is 0 no cell
carries a nonzero percentage (the percentage series is empty). -/
theorem punchcard_normalization (store : List Event) (m : InstallersModel) :
    percentages store m =
      (punchcardGroups store m).map (fun g => (g.2 : ℚ) / (maxCount store m : ℚ)) ∧
    (∀ q ∈ percentages store m, 0 ≤ q ∧ q ≤ 1) ∧
    (0 < maxCount store m → (1 : ℚ) ∈ percentages store m) ∧
    (maxCount store m = 0 → percentages store m = []) := by
  refine ⟨rfl, ?_, ?_, ?_⟩
  · intro q hq
    rcases List.mem_map.mp hq with ⟨g, hg, rfl⟩
    have h1 : 1 ≤ g.2 := punchcardGroups_count_pos g hg
    have h2 : g.2 ≤ maxCount store m := le_maxCount g hg
    have hpos : (0 : ℚ) < (maxCount store m : ℚ) := by
      exact_mod_cast Nat.lt_of_lt_of_le Nat.zero_lt_one (Nat.le_trans h1 h2)
    constructor
    · exact div_nonneg (by exact_mod_cast Nat.zero_le g.2) (le_of_lt hpos)
    · rw [div_le_one hpos]
      exact_mod_cast h2
  · intro hmax
    rcases maxCount_attained hmax with ⟨g, hg, hgmax⟩
    refine List.mem_map.mpr ⟨g, hg, ?_⟩
    rw [hgmax]
    exact div_self (by exact_mod_cast Nat.pos_iff_ne_zero.mp hmax)
  · intro h0
    simp [percentages, maxCount_zero_empty h0]

/-- C7 witness: at the sample store the maximum count is positive and the
percentage 1 is attained. -/
theorem punchcard_normalization_witness :
    (1 : ℚ) ∈ percentages [sampleEvent] sampleModel :=
  (punchcard_normalization [sampleEvent] sampleModel).2.2.1 (by decide)

/-- C8: `update_data` is a pure function of the store and the filter state:
the derived columns it writes do not depend on the prior source state, and
running it a second time with the same inputs leaves the whole source state
unchanged. -/
theorem update_data_pure (store : List Event) (m : InstallersModel)
    (s₁ s₂ : SourceState) :
    (update_data store m s₁).downloads_source = (update_data store m s₂).downloads_source ∧
    (update_data store m s₁).punchcard_source.counts =
      (update_data store m s₂).punchcard_source.counts ∧
    (update_data store m s₁).punchcard_source.percentages =
      (update_data store m s₂).punchcard_source.percentages ∧
    update_data store m (update_data store m s₁) = update_data store m s₁ :=
  ⟨rfl, rfl, rfl, rfl⟩

/-- C9: both derived datasets conserve the number of selected events — the
time-series counts and the punchcard counts each sum to the size of the
selected subset. -/
theorem aggregation_count_conserving (store : List Event) (m : InstallersModel) :
    ((timeSeries store m).map Prod.snd).sum = (selectedEvents store m).length ∧
    ((punchcardGroups store m).map Prod.snd).sum = (selectedEvents store m).length := by
  constructor
  · have h := @groupbySize_sum Date _ Date.lt
      (fun a b c h1 h2 => Date.lt_trans_bool h1 h2)
      (fun a b h1 h2 => Date.lt_asymm_total h1 h2)
      Date.lt_irrefl_bool
      ((selectedEvents store m).map (fun e => bucketFn m.resolution e.date))
    rw [timeSeries]
    rw [h, List.length_map]
  · have h := @groupbySize_sum (Nat × Nat) _ pairLt
      (fun a b c h1 h2 => pairLt_trans h1 h2)
      (fun a b h1 h2 => pairLt_asymm_total h1 h2)
      pairLt_irrefl
      ((selectedEvents store m).map (fun e => (hourOfEvent e, dowOfEvent e)))
    rw [punchcardGroups]
    rw [h, List.length_map]

/-- C10: a recomputation writes only the derived columns — `dates` and
`downloads` of the time-series source, `counts` and `percentages` of the
punchcard source — and never touches the punchcard's `hours` and `days` label
columns, which `create` fixed as the 168-entry hour-major grid. -/
theorem update_data_frame (store : List Event) (m : InstallersModel) (s : SourceState) :
    (update_data store m s).punchcard_source.hours = s.punchcard_source.hours ∧
    (update_data store m s).punchcard_source.days = s.punchcard_source.days ∧
    (update_data store m s).downloads_source.dates = (timeSeries store m).map Prod.fst ∧
    (update_data store m s).downloads_source.downloads = (timeSeries store m).map Prod.snd ∧
    (update_data store m s).punchcard_source.counts =
      (punchcardGroups store m).map Prod.snd ∧
    (update_data store m s).punchcard_source.percentages = percentages store m ∧
    create_state.punchcard_source.hours = punchcardHours ∧
    create_state.punchcard_source.days = punchcardDays ∧
    punchcardHours.length = 168 ∧
    punchcardDays.length = 168 :=
  ⟨rfl, rfl, rfl, rfl, rfl, rfl, rfl, rfl, rfl, rfl⟩
